import Mathlib

/-!
Verification of the connection and data-access core of the zedis Redis client.

The development is a shallow embedding of the relevant Rust sources:
  * src/helpers/string.rs      — AES-256-GCM seal/open wrappers, base64
  * src/helpers/ttl_cache.rs   — idle-expiry cache
  * src/connection/manager.rs  — address parser, sentinel topology, scan, client cache
  * src/states/server/string.rs — JSON truncation
  * src/states/server/value.rs  — SET command assembly

Rust strings are modelled as `List Char` (or `String`), byte buffers as
`List Nat` with values below 256, machine integers as `Nat`/`Int`.
Fallible code returns `Except`/`Option`; a Rust panic (slice index out of
range) is modelled by an explicit outcome constructor.
-/

namespace Zedis

/-- Error model: every error produced by the embedded code paths is the
`Invalid` variant of the repository's error enum (src/error.rs), carrying a
message.  Library-supplied message fragments (for example the display text of
a foreign parse error) are elided from the modelled messages. -/
inductive Err where
  | invalid (message : String)
deriving DecidableEq, Repr

/-! ## Address parser (src/connection/manager.rs, parse_address) -/

/-- Rust's `str::split_once(sep)`: split at the first occurrence of `sep`,
returning the parts before and after it, or `none` when `sep` is absent. -/
def splitOnceList (sep : Char) : List Char → Option (List Char × List Char)
  | [] => none
  | c :: rest =>
    if c = sep then some ([], rest)
    else (splitOnceList sep rest).map (fun p => (c :: p.1, p.2))

/-- Rust's `u16::from_str`: an optional leading plus sign, then one or more
ASCII digits, value at most 65535; anything else is a parse error. -/
def parseU16 (s : List Char) : Option Nat :=
  let ds := match s with
    | '+' :: rest => rest
    | _ => s
  if ds.isEmpty then none
  else if ds.all (fun c => c.isDigit) then
    let v := ds.foldl (fun a c => a * 10 + (c.toNat - 48)) 0
    if v ≤ 65535 then some v else none
  else none

/-- Embedding of `parse_address` (src/connection/manager.rs lines 100-126):
split at the first `@` for the optional cluster-bus port, then split the
address part at the first `:` for host/port, and parse both ports as `u16`. -/
def parse_address (s : List Char) : Except Err (List Char × Nat × Option Nat) :=
  let split := splitOnceList '@' s
  let addrPart := match split with
    | some p => p.1
    | none => s
  let cportPart : Option (List Char) := match split with
    | some p => some p.2
    | none => none
  match splitOnceList ':' addrPart with
  | none => .error (.invalid ("Invalid address format: " ++ String.mk addrPart))
  | some (ip, portStr) =>
    match parseU16 portStr with
    | none => .error (.invalid ("Invalid port: " ++ String.mk portStr))
    | some port =>
      match cportPart with
      | none => .ok (ip, port, none)
      | some cs =>
        match parseU16 cs with
        | none => .error (.invalid ("Invalid cluster bus port: " ++ String.mk cs))
        | some cport => .ok (ip, port, some cport)

/-! ## TTL cache (src/helpers/ttl_cache.rs)

The `DashMap` is modelled as an association list with at most one live entry
per key (lookups take the first match, mirroring the map semantics).  The
monotonic clock `now_secs()` is passed explicitly to every operation. -/

structure TtlCache (K V : Type) where
  idle : Nat
  cache : List (K × V × Nat)

variable {K V : Type} [DecidableEq K]

/-- Map lookup: the value and expiry stored under a key. -/
def TtlCache.lookup (c : TtlCache K V) (k : K) : Option (V × Nat) :=
  (c.cache.find? (fun e => e.1 = k)).map (fun e => e.2)

/-- Expiry refresh performed by a cache hit: overwrite the stored
`expired_at` of the entry under the key. -/
def refreshFirst (k : K) (newExp : Nat) : List (K × V × Nat) → List (K × V × Nat)
  | [] => []
  | (k', v, e) :: rest =>
    if k' = k then (k', v, newExp) :: rest
    else (k', v, e) :: refreshFirst k newExp rest

/-- Embedding of `TtlCache::get`: return `None` when the key is absent or the
stored expiry is strictly below `now`; otherwise refresh the expiry to
`now + idle` and return a clone of the value. -/
def TtlCache.get (c : TtlCache K V) (now : Nat) (k : K) : Option V × TtlCache K V :=
  match c.lookup k with
  | none => (none, c)
  | some (v, e) =>
    if e < now then (none, c)
    else (some v, { c with cache := refreshFirst k (now + c.idle) c.cache })

/-- Embedding of `TtlCache::insert`: store the value with
`expired_at = now + idle`, replacing any previous entry under the key. -/
def TtlCache.insert (c : TtlCache K V) (now : Nat) (k : K) (v : V) : TtlCache K V :=
  { c with cache := (k, v, now + c.idle) :: c.cache.filter (fun e => ¬ e.1 = k) }

/-- Embedding of `TtlCache::remove`. -/
def TtlCache.remove (c : TtlCache K V) (k : K) : TtlCache K V :=
  { c with cache := c.cache.filter (fun e => ¬ e.1 = k) }

/-- Embedding of `TtlCache::clear_expired`: retain entries whose expiry is
strictly greater than `now`, and report (evicted count, remaining count). -/
def TtlCache.clearExpired (c : TtlCache K V) (now : Nat) : (Nat × Nat) × TtlCache K V :=
  ((c.cache.length - (c.cache.filter (fun e => now < e.2.2)).length,
    (c.cache.filter (fun e => now < e.2.2)).length),
   { c with cache := c.cache.filter (fun e => now < e.2.2) })

/-! ## Client manager cache keys (src/connection/manager.rs)

`get_client` caches under the key `format!("{:x}:{}", config.get_hash(), db)`
while `remove_client` removes under the raw server id. -/

/-- Lowercase hexadecimal rendering of a `u64` hash, as `format!("{:x}", h)`. -/
def hexStr (n : Nat) : String :=
  String.mk (Nat.toDigits 16 n)

/-- Cache key used by `ConnectionManager::get_client` (line 506). -/
def clientCacheKey (cfgHash : Nat) (db : Nat) : String :=
  hexStr cfgHash ++ ":" ++ toString db

/-- Embedding of `ConnectionManager::remove_client` (lines 500-502): remove
the cache entry stored under the raw server id. -/
def removeClient (clients : TtlCache String C) (name : String) : TtlCache String C :=
  clients.remove name

/-- Cache-hit path of `ConnectionManager::get_client` (lines 504-509): look
up the client cached under the hash/db key. -/
def getClientCached (clients : TtlCache String C) (now : Nat) (cfgHash : Nat) (db : Nat) :
    Option C × TtlCache String C :=
  clients.get now (clientCacheKey cfgHash db)

/-! ## JSON truncation (src/states/server/string.rs, truncate_long_strings)

The `serde_json::Value` tree; numbers are kept as literals since truncation
never touches them. -/

inductive Json where
  | null
  | bool (b : Bool)
  | num (s : String)
  | str (s : String)
  | arr (items : List Json)
  | obj (fields : List (String × Json))
deriving Repr

/-- Byte length of a Rust string: `str::len()` counts UTF-8 bytes. -/
def rustByteLen (s : String) : Nat :=
  (s.toList.map Char.utf8Size).sum

/-- Suffix appended by the code to a truncated string:
`format!("...(Total xx chars, content hidden)", char_count)`. -/
def truncSuffix (charCount : Nat) : String :=
  "...(Total " ++ toString charCount ++ " chars, content hidden)"

mutual

/-- Embedding of `truncate_long_strings` (lines 30-55): a string is replaced
when its byte length and its character count both exceed the limit; arrays
and objects are walked recursively; the boolean is the or-accumulated
`truncated` flag. -/
def truncateLongStrings (m : Nat) : Json → Json × Bool
  | .null => (.null, false)
  | .bool b => (.bool b, false)
  | .num s => (.num s, false)
  | .str s =>
    if m < rustByteLen s then
      let cc := s.length
      if m < cc then (.str (s.take m ++ truncSuffix cc), true)
      else (.str s, false)
    else (.str s, false)
  | .arr items =>
    let p := truncateJsonList m items
    (.arr p.1, p.2)
  | .obj fields =>
    let p := truncateJsonFields m fields
    (.obj p.1, p.2)

def truncateJsonList (m : Nat) : List Json → List Json × Bool
  | [] => ([], false)
  | v :: rest =>
    let p := truncateLongStrings m v
    let q := truncateJsonList m rest
    (p.1 :: q.1, p.2 || q.2)

def truncateJsonFields (m : Nat) : List (String × Json) → List (String × Json) × Bool
  | [] => ([], false)
  | kv :: rest =>
    let p := truncateLongStrings m kv.2
    let q := truncateJsonFields m rest
    ((kv.1, p.1) :: q.1, p.2 || q.2)

end

/-- Specification-side description of the per-string replacement: a string
whose character count exceeds the limit becomes its first `m` characters
followed by the suffix; shorter strings are unchanged. -/
def truncStr (m : Nat) (s : String) : String :=
  if m < s.length then s.take m ++ truncSuffix s.length else s

mutual

/-- Specification-side description of the walk: apply a string transformer
to every string leaf of a JSON value. -/
def mapJsonStrings (f : String → String) : Json → Json
  | .null => .null
  | .bool b => .bool b
  | .num s => .num s
  | .str s => .str (f s)
  | .arr items => .arr (mapJsonStringsList f items)
  | .obj fields => .obj (mapJsonStringsFields f fields)

def mapJsonStringsList (f : String → String) : List Json → List Json
  | [] => []
  | v :: rest => mapJsonStrings f v :: mapJsonStringsList f rest

def mapJsonStringsFields (f : String → String) : List (String × Json) → List (String × Json)
  | [] => []
  | kv :: rest => (kv.1, mapJsonStrings f kv.2) :: mapJsonStringsFields f rest

end

mutual

/-- Specification-side flag: does the value contain a string leaf whose
character count exceeds the limit? -/
def jsonHasLongString (m : Nat) : Json → Bool
  | .null => false
  | .bool _ => false
  | .num _ => false
  | .str s => m < s.length
  | .arr items => jsonHasLongStringList m items
  | .obj fields => jsonHasLongStringFields m fields

def jsonHasLongStringList (m : Nat) : List Json → Bool
  | [] => false
  | v :: rest => jsonHasLongString m v || jsonHasLongStringList m rest

def jsonHasLongStringFields (m : Nat) : List (String × Json) → Bool
  | [] => false
  | kv :: rest => jsonHasLongString m kv.2 || jsonHasLongStringFields m rest

end

/-! ## Base64 (the `base64` crate's STANDARD engine, used by encrypt/decrypt)

Canonical padded alphabet; decoding requires canonical padding and rejects
non-zero trailing bits, as the STANDARD general-purpose engine does. -/

def b64Alphabet : List Char :=
  ['A', 'B', 'C', 'D', 'E', 'F', 'G', 'H', 'I', 'J', 'K', 'L', 'M',
   'N', 'O', 'P', 'Q', 'R', 'S', 'T', 'U', 'V', 'W', 'X', 'Y', 'Z',
   'a', 'b', 'c', 'd', 'e', 'f', 'g', 'h', 'i', 'j', 'k', 'l', 'm',
   'n', 'o', 'p', 'q', 'r', 's', 't', 'u', 'v', 'w', 'x', 'y', 'z',
   '0', '1', '2', '3', '4', '5', '6', '7', '8', '9', '+', '/']

def b64Char (n : Nat) : Char :=
  b64Alphabet.getD n 'A'

def b64Val (c : Char) : Option Nat :=
  b64Alphabet.findIdx? (fun x => x = c)

/-- Base64-encode a byte list, three bytes to four characters, with
canonical `=` padding. -/
def b64EncodeList : List Nat → List Char
  | b0 :: b1 :: b2 :: rest =>
    b64Char (b0 / 4) :: b64Char (b0 % 4 * 16 + b1 / 16) ::
      b64Char (b1 % 16 * 4 + b2 / 64) :: b64Char (b2 % 64) :: b64EncodeList rest
  | [b0, b1] => [b64Char (b0 / 4), b64Char (b0 % 4 * 16 + b1 / 16), b64Char (b1 % 16 * 4), '=']
  | [b0] => [b64Char (b0 / 4), b64Char (b0 % 4 * 16), '=', '=']
  | [] => []

/-- Three bytes recovered from a full four-character group. -/
def b64DecodeQuad (v0 v1 v2 v3 : Nat) : List Nat :=
  [v0 * 4 + v1 / 16, v1 % 16 * 16 + v2 / 4, v2 % 4 * 64 + v3]

/-- Decode the final four-character group, which may carry `=` padding;
non-canonical trailing bits are rejected. -/
def b64DecodeLast (c0 c1 c2 c3 : Char) : Option (List Nat) :=
  match b64Val c0, b64Val c1 with
  | some v0, some v1 =>
    if c2 = '=' then
      if c3 = '=' then
        if v1 % 16 = 0 then some [v0 * 4 + v1 / 16] else none
      else none
    else
      match b64Val c2 with
      | some v2 =>
        if c3 = '=' then
          if v2 % 4 = 0 then some [v0 * 4 + v1 / 16, v1 % 16 * 16 + v2 / 4] else none
        else
          match b64Val c3 with
          | some v3 => some (b64DecodeQuad v0 v1 v2 v3)
          | none => none
      | none => none
  | _, _ => none

/-- Base64-decode: the input must be a sequence of four-character groups;
`=` padding is only legal in the final group. -/
def b64DecodeList : List Char → Option (List Nat)
  | [] => some []
  | c0 :: c1 :: c2 :: c3 :: rest =>
    if rest.isEmpty then b64DecodeLast c0 c1 c2 c3
    else
      match b64Val c0, b64Val c1, b64Val c2, b64Val c3, b64DecodeList rest with
      | some v0, some v1, some v2, some v3, some tail => some (b64DecodeQuad v0 v1 v2 v3 ++ tail)
      | _, _, _, _, _ => none
  | _ => none

/-! ## UTF-8 validity (Rust's `String::from_utf8` acceptance condition) -/

/-- Continuation byte: `0x80 ..= 0xBF`. -/
def utf8Cont (b : Nat) : Bool :=
  128 ≤ b && b < 192

/-- Validity of a byte sequence as UTF-8, following the Unicode well-formed
byte-sequence table (no overlongs, no surrogates, at most U+10FFFF); this is
exactly what `String::from_utf8` accepts. -/
def utf8Valid : List Nat → Bool
  | [] => true
  | b :: rest =>
    if b < 128 then utf8Valid rest
    else if 194 ≤ b && b ≤ 223 then
      match rest with
      | b1 :: r => utf8Cont b1 && utf8Valid r
      | [] => false
    else if b = 224 then
      match rest with
      | b1 :: b2 :: r => (160 ≤ b1 && b1 < 192) && utf8Cont b2 && utf8Valid r
      | _ => false
    else if (225 ≤ b && b ≤ 236) || b = 238 || b = 239 then
      match rest with
      | b1 :: b2 :: r => utf8Cont b1 && utf8Cont b2 && utf8Valid r
      | _ => false
    else if b = 237 then
      match rest with
      | b1 :: b2 :: r => (128 ≤ b1 && b1 < 160) && utf8Cont b2 && utf8Valid r
      | _ => false
    else if b = 240 then
      match rest with
      | b1 :: b2 :: b3 :: r => (144 ≤ b1 && b1 < 192) && utf8Cont b2 && utf8Cont b3 && utf8Valid r
      | _ => false
    else if 241 ≤ b && b ≤ 243 then
      match rest with
      | b1 :: b2 :: b3 :: r => utf8Cont b1 && utf8Cont b2 && utf8Cont b3 && utf8Valid r
      | _ => false
    else if b = 244 then
      match rest with
      | b1 :: b2 :: b3 :: r => (128 ≤ b1 && b1 < 144) && utf8Cont b2 && utf8Cont b3 && utf8Valid r
      | _ => false
    else false

/-! ## AES-256-GCM seal/open wrappers (src/helpers/string.rs)

The `aes_gcm` crate is external to the repository; its AEAD is abstracted as
a pair of functions (encrypt with a nonce, decrypt returning `none` on
authentication failure).  The repository code around it — nonce prepending,
base64, slicing, UTF-8 decoding — is embedded faithfully. -/

structure Aead where
  enc : List Nat → List Nat → List Nat
  dec : List Nat → List Nat → Option (List Nat)

/-- Outcome of `decrypt`: a successful plaintext, an `Invalid` error, or a
Rust panic (slice index out of range). -/
inductive DecOutcome where
  | ok (plain : List Nat)
  | err
  | panicked
deriving DecidableEq, Repr

/-- Embedding of `encrypt` (lines 106-124): seal the plaintext with a fresh
12-byte nonce, prepend the nonce, and base64-encode.  The random nonce is a
parameter; the cipher is total, so the library error branch is not taken. -/
def encrypt (A : Aead) (nonce : List Nat) (plain : List Nat) : List Char :=
  b64EncodeList (nonce ++ A.enc nonce plain)

/-- Embedding of `decrypt` (lines 148-171): base64-decode (failure is an
`Invalid` error), slice the nonce out of the first 12 bytes (Rust's
`&data[0..12]` panics when fewer than 12 bytes were decoded), decrypt and
authenticate (failure is `Invalid`), and UTF-8-decode (failure is
`Invalid`). -/
def decrypt (A : Aead) (cipherText : List Char) : DecOutcome :=
  match b64DecodeList cipherText with
  | none => .err
  | some data =>
    if data.length < 12 then .panicked
    else
      let nonce := data.take 12
      let ciphertext := data.drop 12
      match A.dec nonce ciphertext with
      | none => .err
      | some plaintext => if utf8Valid plaintext then .ok plaintext else .err

/-- Trivial AEAD instance (identity cipher) used to evaluate the wrapper
code on concrete inputs. -/
def idAead : Aead :=
  { enc := fun _ p => p, dec := fun _ c => some c }

/-! ## Server version and the string SET command (src/states/server/value.rs)

The `semver::Version` values compared here are parsed from `redis_version`
strings of the plain `major.minor.patch` form, so the pre-release component
is empty and the order is lexicographic on the numeric triple. -/

structure Version where
  major : Nat
  minor : Nat
  patch : Nat
deriving DecidableEq, Repr

/-- Lexicographic comparison `a <= b` on semantic versions. -/
def Version.le (a b : Version) : Bool :=
  a.major < b.major ||
    (a.major = b.major && (a.minor < b.minor ||
      (a.minor = b.minor && a.patch ≤ b.patch)))

/-- Embedding of `RedisClient::is_at_least_version` (manager.rs lines
238-240) applied to the literal `"6.0.0"`, which parses to `6.0.0`. -/
def isAtLeastV600 (v : Version) : Bool :=
  Version.le { major := 6, minor := 0, patch := 0 } v

/-- Embedding of the command assembly in `save_value` (value.rs lines
538-547): `SET key value`, then `KEEPTTL` when the server is at least 6.0.0,
else `PX ttl` when the current TTL in milliseconds is positive. -/
def buildSetCmd (version : Version) (ttl : Int) (key value : String) : List String :=
  let base := ["SET", key, value]
  if isAtLeastV600 version then base ++ ["KEEPTTL"]
  else if 0 < ttl then base ++ ["PX", toString ttl]
  else base

/-! ## Sentinel topology resolution (src/connection/manager.rs lines 438-489)

A `SENTINEL MASTERS` reply record is a string-to-string map, modelled as an
association list; the node set produced inherits the seed config with host
and port overridden, projected here to the fields the resolution depends
on. -/

def SRecord : Type := List (String × String)

/-- Map lookup in a reply record. -/
def rGet (r : SRecord) (k : String) : Option String :=
  (r.find? (fun p => p.1 = k)).map (fun p => p.2)

inductive NodeRole where
  | Master
  | Slave
  | Fail
  | Unknown
deriving DecidableEq, Repr

structure RNode where
  host : String
  port : Nat
  role : NodeRole
  master_name : Option String
deriving DecidableEq, Repr

/-- Loop body of the Sentinel branch: extract `ip`, `port` (parsed as
`u16`) and `name` from each record — any missing field or bad port is an
`Invalid` error — skip records whose name differs from a configured
preferred master name, and emit one master node per remaining record. -/
def collectSentinelNodes (masterNameCfg : Option String) : List SRecord → Except Err (List RNode)
  | [] => .ok []
  | r :: rest =>
    match rGet r "ip" with
    | none => .error (.invalid "ip is not found")
    | some ip =>
      match rGet r "port" with
      | none => .error (.invalid "port is not found")
      | some ps =>
        match parseU16 ps.toList with
        | none => .error (.invalid "Invalid port")
        | some port =>
          match rGet r "name" with
          | none => .error (.invalid "master_name is not found")
          | some name =>
            if masterNameCfg.isSome && masterNameCfg ≠ some name then
              collectSentinelNodes masterNameCfg rest
            else
              match collectSentinelNodes masterNameCfg rest with
              | .error e => .error e
              | .ok nodes =>
                .ok ({ host := ip, port := port, role := .Master, master_name := some name } :: nodes)

/-- Message of the ambiguous-masters error.  The source renders the set of
distinct names with the debug formatter of a hash set, whose order is
unspecified; the model fixes the first-occurrence order. -/
def multiMasterMsg (names : List String) : String :=
  "Multiple masters found in Sentinel, please specify master_name, master_names: " ++ toString names

/-- First-occurrence deduplication. -/
def dedupNames : List String → List String
  | [] => []
  | n :: rest => n :: (dedupNames rest).filter (fun x => ¬ x = n)

/-- Embedding of the Sentinel arm of `get_redis_nodes`: collect the nodes,
then fail when more than one distinct master name is present. -/
def getRedisNodesSentinel (masterNameCfg : Option String) (records : List SRecord) :
    Except Err (List RNode) :=
  match collectSentinelNodes masterNameCfg records with
  | .error e => .error e
  | .ok nodes =>
    let uniq := dedupNames (nodes.filterMap (fun n => n.master_name))
    if 1 < uniq.length then .error (.invalid (multiMasterMsg uniq))
    else .ok nodes

/-! ## Fan-out SCAN (src/connection/manager.rs lines 277-318)

The per-master network exchange is abstracted as one `(new_cursor, keys)`
reply per master, in master order (`try_join_all` preserves order).  The
text of each command is assembled as in the source. -/

/-- Argument list of the SCAN command sent for one cursor. -/
def scanCmd (cursor : Nat) (pattern : String) (count : Nat) : List String :=
  ["SCAN", toString cursor, "MATCH", pattern, "COUNT", toString count]

/-- Outcome of `scan`: the `Invalid` error raised by `query_async_masters`
on an empty command list, the panic of `values[0]` on an empty reply
vector, or the new cursor vector with the merged key list. -/
inductive ScanOutcome where
  | ok (cursors : List Nat) (keys : List String)
  | errEmptyCmds
  | panicked
deriving DecidableEq, Repr

/-- Lexicographic order on character lists.  Rust's `sort_unstable` on
strings sorts byte-lexicographically, which on UTF-8 agrees with the
codepoint-lexicographic order computed here. -/
def charListLe : List Char → List Char → Bool
  | [], _ => true
  | _ :: _, [] => false
  | a :: as, b :: bs =>
    if a < b then true
    else if a = b then charListLe as bs
    else false

/-- String order used for sorting keys. -/
def strLeB (a b : String) : Bool :=
  charListLe a.toList b.toList

/-- Propositional form of the key order. -/
def strLeProp (a b : String) : Prop :=
  strLeB a b = true

instance : DecidableRel strLeProp :=
  fun _ _ => instDecidableEqBool _ _

/-- Embedding of `RedisClient::scan`: build one SCAN command per cursor
(`query_async_masters` rejects an empty command list), receive one reply
per master (indexing `values[0]` panics when there is no master), return
the new cursors in master order and all keys flattened and sorted. -/
def scanModel (cursors : List Nat) (pattern : String) (count : Nat)
    (replies : List (Nat × List String)) : ScanOutcome :=
  let cmds := cursors.map (fun cursor => scanCmd cursor pattern count)
  if cmds.isEmpty then .errEmptyCmds
  else if replies.isEmpty then .panicked
  else .ok (replies.map Prod.fst) (List.insertionSort strLeProp ((replies.map Prod.snd).flatten))

/-- Embedding of `RedisClient::first_scan`: scan with one zero cursor per
master. -/
def firstScanModel (masterCount : Nat) (pattern : String) (count : Nat)
    (replies : List (Nat × List String)) : ScanOutcome :=
  scanModel (List.replicate masterCount 0) pattern count replies

/-! ## Specification-side helpers and concrete evaluation data -/

/-- Well-formedness of a `SENTINEL MASTERS` record: `ip`, a parseable
`port`, and `name` are all present. -/
def SRecordWf (r : SRecord) : Prop :=
  (rGet r "ip").isSome ∧ ((rGet r "port").bind (fun ps => parseU16 ps.toList)).isSome ∧
    (rGet r "name").isSome

instance (r : SRecord) : Decidable (SRecordWf r) :=
  inferInstanceAs (Decidable (_ ∧ _ ∧ _))

/-- Master name of a record (defaulting to the empty string). -/
def recName (r : SRecord) : String :=
  (rGet r "name").getD ""

/-- Does a record pass the preferred-master-name filter? -/
def sentinelMatches (cfg : Option String) (r : SRecord) : Bool :=
  !(cfg.isSome && cfg ≠ some (recName r))

/-- Node built from a record: role `Master`, the record's name as
`master_name`, host and port from the record. -/
def sentinelNode (r : SRecord) : RNode :=
  { host := (rGet r "ip").getD ""
    port := ((rGet r "port").bind (fun ps => parseU16 ps.toList)).getD 0
    role := .Master
    master_name := some (recName r) }

/-- Specification-side node list: one master node per record that passes
the preferred-name filter, in record order. -/
def expectedSentinelNodes (cfg : Option String) (rs : List SRecord) : List RNode :=
  (rs.filter (fun r => sentinelMatches cfg r)).map sentinelNode

/-- Record of the end-to-end Sentinel scenario: master named `a`. -/
def sentinelRecA : SRecord :=
  [("name", "a"), ("ip", "10.0.0.1"), ("port", "6379")]

/-- Record of the end-to-end Sentinel scenario: master named `b`. -/
def sentinelRecB : SRecord :=
  [("name", "b"), ("ip", "10.0.0.2"), ("port", "6380")]

/-- Client cache holding one client under the key built from config hash
255 (hex `ff`) and database 0, inserted at clock second 0 with the
5-minute idle of the client manager. -/
def demoClients : TtlCache String Nat :=
  TtlCache.insert { idle := 300, cache := [] } 0 (clientCacheKey 255 0) 42

/-- Cache with a single entry under key 0 whose expiry is clock second 10. -/
def demoBoundaryCache : TtlCache Nat Nat :=
  { idle := 5, cache := [(0, 7, 10)] }

/-- Empty cache with a 5-second idle. -/
def demoEmptyCache : TtlCache Nat Nat :=
  { idle := 5, cache := [] }

/-- Replies of the end-to-end scan scenario: three masters returning new
cursors 1, 2, 0 and five keys in total. -/
def demoScanReplies : List (Nat × List String) :=
  [(1, ["b", "a"]), (2, ["c"]), (0, ["e", "d"])]

/-! # Theorems -/

section TtlCacheTheorems

variable {K V : Type} [DecidableEq K]

theorem lookup_refreshFirst (k : K) (ne : Nat) (l : List (K × V × Nat)) (v : V) (e : Nat)
    (h : (l.find? (fun p => p.1 = k)).map (fun p => p.2) = some (v, e)) :
    ((refreshFirst k ne l).find? (fun p => p.1 = k)).map (fun p => p.2) = some (v, ne) := by
  induction l with
  | nil => simp at h
  | cons hd tl ih =>
    obtain ⟨k1, v1, e1⟩ := hd
    by_cases hk : k1 = k
    · subst hk
      rw [List.find?_cons_of_pos _ (by simp)] at h
      simp only [Option.map_some', Option.some.injEq, Prod.mk.injEq] at h
      rw [refreshFirst, if_pos rfl, List.find?_cons_of_pos _ (by simp)]
      simp [h.1]
    · rw [List.find?_cons_of_neg _ (by simp [hk])] at h
      rw [refreshFirst, if_neg hk, List.find?_cons_of_neg _ (by simp [hk])]
      exact ih h

/-- C10: at the exact expiry second, `get` still returns the value — its
staleness check is a strict `<` — and refreshes the expiry to `now + idle`,
while `clear_expired` at the same second evicts the entry — its liveness
check is a strict `>` — counting it among the evicted. -/
theorem ttl_boundary_asymmetry (c : TtlCache K V) (k : K) (v : V) (now : Nat)
    (hnd : (c.cache.map (fun e => e.1)).Nodup)
    (h : c.lookup k = some (v, now)) :
    (c.get now k).1 = some v ∧
    ((c.get now k).2).lookup k = some (v, now + c.idle) ∧
    ((c.clearExpired now).2).lookup k = none ∧
    1 ≤ ((c.clearExpired now).1).1 := by
  obtain ⟨f, hf, hfd⟩ : ∃ f, c.cache.find? (fun p => p.1 = k) = some f ∧ f.2 = (v, now) := by
    unfold TtlCache.lookup at h
    cases hx : c.cache.find? (fun p => p.1 = k) with
    | none => rw [hx] at h; simp at h
    | some f => rw [hx] at h; exact ⟨f, rfl, by simpa using h⟩
  have hfk : f.1 = k := by
    have := List.find?_some hf
    simpa using this
  have hfm : f ∈ c.cache := List.mem_of_find?_eq_some hf
  have hget : c.get now k = (some v, { c with cache := refreshFirst k (now + c.idle) c.cache }) := by
    unfold TtlCache.get
    rw [h]
    simp
  refine ⟨by rw [hget], ?_, ?_, ?_⟩
  · rw [hget]
    exact lookup_refreshFirst k (now + c.idle) c.cache v now h
  · simp only [TtlCache.clearExpired, TtlCache.lookup]
    rw [Option.map_eq_none', List.find?_eq_none]
    intro x hx
    simp only [List.mem_filter] at hx
    obtain ⟨hxm, hxlt⟩ := hx
    intro hxk
    have hxk' : x.1 = k := by simpa using hxk
    have hxf : x = f := by
      have := List.inj_on_of_nodup_map hnd hxm hfm (by rw [hxk', hfk])
      exact this
    rw [hxf, hfd] at hxlt
    simp at hxlt
  · simp only [TtlCache.clearExpired]
    have hlt : (List.filter (fun e => decide (now < e.2.2)) c.cache).length < c.cache.length := by
      rw [List.length_filter_lt_length_iff_exists]
      exact ⟨f, hfm, by rw [hfd]; simp⟩
    omega

/-- C8: after `insert(k, v)` at clock second `t`, a sweep at any second
`s ≥ t + idle` evicts `k` — it is counted and absent afterwards — while a
sweep at `s < t + idle` retains `k` with its value and expiry `t + idle`;
entries still live at `s` are never evicted. -/
theorem ttl_insert_sweep (c : TtlCache K V) (k : K) (v : V) (t s : Nat) :
    (t + c.idle ≤ s →
      (((c.insert t k v).clearExpired s).2).lookup k = none ∧
      1 ≤ (((c.insert t k v).clearExpired s).1).1) ∧
    (s < t + c.idle →
      (((c.insert t k v).clearExpired s).2).lookup k = some (v, t + c.idle)) ∧
    (∀ e ∈ (c.insert t k v).cache, s < e.2.2 → e ∈ (((c.insert t k v).clearExpired s).2).cache) := by
  refine ⟨fun hs => ⟨?_, ?_⟩, fun hs => ?_, fun e he hlive => ?_⟩
  · simp only [TtlCache.clearExpired, TtlCache.lookup]
    rw [Option.map_eq_none', List.find?_eq_none]
    intro x hx hxk
    simp only [TtlCache.insert, List.filter_cons] at hx
    have hns : ¬ (s < t + c.idle) := by omega
    rw [if_neg (by simp [hns])] at hx
    have hxm := (List.mem_filter.mp hx).1
    have hxne := (List.mem_filter.mp hxm).2
    simp only [decide_eq_true_eq] at hxne hxk
    exact hxne hxk
  · simp only [TtlCache.clearExpired, TtlCache.insert, List.filter_cons, List.length_cons]
    have hns : ¬ (s < t + c.idle) := by omega
    rw [if_neg (by simp [hns])]
    have := List.length_filter_le (fun e => decide (s < e.2.2))
      (c.cache.filter (fun e => decide (¬ e.1 = k)))
    omega
  · simp only [TtlCache.clearExpired, TtlCache.lookup, TtlCache.insert, List.filter_cons]
    rw [if_pos (by simpa using hs)]
    rw [List.find?_cons_of_pos _ (by simp)]
    rfl
  · simp only [TtlCache.clearExpired]
    exact List.mem_filter.mpr ⟨he, by simpa using hlive⟩

end TtlCacheTheorems

/-- Witness for `ttl_boundary_asymmetry`: a cache whose single entry
expires exactly at second 10, probed at second 10. -/
theorem ttl_boundary_asymmetry_witness :
    (demoBoundaryCache.get 10 0).1 = some 7 ∧
    ((demoBoundaryCache.get 10 0).2).lookup 0 = some (7, 15) ∧
    ((demoBoundaryCache.clearExpired 10).2).lookup 0 = none ∧
    1 ≤ ((demoBoundaryCache.clearExpired 10).1).1 :=
  ttl_boundary_asymmetry demoBoundaryCache 0 7 10 (by decide) (by decide)

/-- Witness for `ttl_insert_sweep`: insert at second 10 with idle 5, sweep
at seconds 15 and 14. -/
theorem ttl_insert_sweep_witness :
    (((demoEmptyCache.insert 10 1 9).clearExpired 15).2).lookup 1 = none ∧
    1 ≤ (((demoEmptyCache.insert 10 1 9).clearExpired 15).1).1 ∧
    (((demoEmptyCache.insert 10 1 9).clearExpired 14).2).lookup 1 = some (9, 15) :=
  ⟨((ttl_insert_sweep demoEmptyCache 1 9 10 15).1 (by decide)).1,
   ((ttl_insert_sweep demoEmptyCache 1 9 10 15).1 (by decide)).2,
   (ttl_insert_sweep demoEmptyCache 1 9 10 14).2.1 (by decide)⟩

/-- C3 (code bug): `remove_client` removes under the raw server id, but
entries are cached under `hex(config hash) ++ ":" ++ db`; removing the
server id `s1` leaves the cache unchanged and a subsequent `get_client`
lookup still hits the cached client. -/
theorem remove_client_does_not_evict :
    (removeClient demoClients "s1").cache = demoClients.cache ∧
    (getClientCached (removeClient demoClients "s1") 10 255 0).1 = some 42 := by
  constructor
  · decide
  · decide

/-- C9: the assembled write command is `SET key value`; `KEEPTTL` is
appended exactly when the parsed server version is at least 6.0.0 (the
lexicographic comparison reduces to `major ≥ 6`), else `PX ttl` when the
current TTL is positive, else nothing. -/
theorem save_value_set_command (v : Version) (ttl : Int) (key value : String) :
    (6 ≤ v.major → buildSetCmd v ttl key value = ["SET", key, value, "KEEPTTL"]) ∧
    (v.major < 6 → 0 < ttl → buildSetCmd v ttl key value = ["SET", key, value, "PX", toString ttl]) ∧
    (v.major < 6 → ttl ≤ 0 → buildSetCmd v ttl key value = ["SET", key, value]) := by
  refine ⟨fun h6 => ?_, fun h6 httl => ?_, fun h6 httl => ?_⟩
  · have hv : isAtLeastV600 v = true := by
      unfold isAtLeastV600 Version.le
      rcases Nat.lt_or_ge 6 v.major with h | h
      · simp [h]
      · have : v.major = 6 := by omega
        simp [this]
        omega
    simp [buildSetCmd, hv]
  · have hv : isAtLeastV600 v = false := by
      unfold isAtLeastV600 Version.le
      simp only [Bool.or_eq_false_iff, Bool.and_eq_false_iff]
      constructor
      · simp; omega
      · left; simp; omega
    simp [buildSetCmd, hv, httl]
  · have hv : isAtLeastV600 v = false := by
      unfold isAtLeastV600 Version.le
      simp only [Bool.or_eq_false_iff, Bool.and_eq_false_iff]
      constructor
      · simp; omega
      · left; simp; omega
    simp [buildSetCmd, hv, not_lt.mpr httl]

/-- Witness for `save_value_set_command`: versions 7.2.0 and 5.0.14, TTL
1500 milliseconds and no TTL. -/
theorem save_value_set_command_witness :
    buildSetCmd { major := 7, minor := 2, patch := 0 } 1500 "k" "v" = ["SET", "k", "v", "KEEPTTL"] ∧
    buildSetCmd { major := 5, minor := 0, patch := 14 } 1500 "k" "v" =
      ["SET", "k", "v", "PX", toString (1500 : Int)] ∧
    buildSetCmd { major := 5, minor := 0, patch := 14 } 0 "k" "v" = ["SET", "k", "v"] :=
  ⟨(save_value_set_command { major := 7, minor := 2, patch := 0 } 1500 "k" "v").1 (by decide),
   (save_value_set_command { major := 5, minor := 0, patch := 14 } 1500 "k" "v").2.1 (by decide)
     (by decide),
   (save_value_set_command { major := 5, minor := 0, patch := 14 } 0 "k" "v").2.2 (by decide)
     (by decide)⟩

/-! ## Address parser theorems (C2) -/

theorem splitOnceList_eq_none_iff (sep : Char) (l : List Char) :
    splitOnceList sep l = none ↔ sep ∉ l := by
  induction l with
  | nil => simp [splitOnceList]
  | cons c rest ih =>
    simp only [splitOnceList]
    by_cases h : c = sep
    · subst h
      simp
    · rw [if_neg h, Option.map_eq_none', ih]
      constructor
      · intro hn hmem
        rcases List.mem_cons.mp hmem with h1 | h1
        · exact h h1.symm
        · exact hn h1
      · intro hn hmem
        exact hn (List.mem_cons_of_mem c hmem)

theorem splitOnceList_eq_some_iff (sep : Char) (l a b : List Char) :
    splitOnceList sep l = some (a, b) ↔ l = a ++ sep :: b ∧ sep ∉ a := by
  induction l generalizing a with
  | nil =>
    simp only [splitOnceList]
    constructor
    · intro h
      cases h
    · rintro ⟨h, -⟩
      cases a with
      | nil => cases h
      | cons x xs => cases h
  | cons c rest ih =>
    simp only [splitOnceList]
    by_cases h : c = sep
    · subst h
      rw [if_pos rfl]
      simp only [Option.some.injEq, Prod.mk.injEq]
      constructor
      · rintro ⟨rfl, rfl⟩
        simp
      · rintro ⟨heq, hni⟩
        cases a with
        | nil =>
          simp only [List.nil_append, List.cons.injEq] at heq
          exact ⟨rfl, heq.2⟩
        | cons x xs =>
          simp only [List.cons_append, List.cons.injEq] at heq
          exact absurd (List.mem_cons.mpr (Or.inl heq.1)) hni
    · rw [if_neg h]
      constructor
      · intro hm
        rcases Option.map_eq_some'.mp hm with ⟨⟨a', b'⟩, hsp, hab⟩
        simp only [Prod.mk.injEq] at hab
        obtain ⟨rfl, rfl⟩ := hab
        obtain ⟨hrest, hni⟩ := (ih a').mp hsp
        refine ⟨by simp [hrest], ?_⟩
        intro hmem
        rcases List.mem_cons.mp hmem with h1 | h1
        · exact h h1.symm
        · exact hni h1
      · rintro ⟨heq, hni⟩
        cases a with
        | nil =>
          simp only [List.nil_append, List.cons.injEq] at heq
          exact absurd heq.1 h
        | cons x xs =>
          simp only [List.cons_append, List.cons.injEq] at heq
          obtain ⟨rfl, hrest⟩ := heq
          have hni' : sep ∉ xs := fun hm => hni (List.mem_cons_of_mem _ hm)
          rw [(ih xs).mpr ⟨hrest, hni'⟩]
          rfl

/-- C2 (amended): the address parser accepts exactly `host:port` and
`host:port@cport` where the host contains no colon; the input is split at
the first `@` (if any) and the address part at the first `:` — not the
last — so bracketed IPv6 literals are rejected. -/
theorem parse_address_accepts_exactly (s ip : List Char) (p : Nat) (c : Option Nat) :
    parse_address s = .ok (ip, p, c) ↔
      (∃ ps, ':' ∉ ip ∧ parseU16 ps = some p ∧
        ((c = none ∧ '@' ∉ s ∧ s = ip ++ ':' :: ps) ∨
         (∃ cp cs, c = some cp ∧ parseU16 cs = some cp ∧ '@' ∉ ip ∧ '@' ∉ ps ∧
           s = ip ++ ':' :: (ps ++ '@' :: cs)))) := by
  cases hsp : splitOnceList '@' s with
  | none =>
    have hnoAt : '@' ∉ s := (splitOnceList_eq_none_iff '@' s).mp hsp
    cases hc : splitOnceList ':' s with
    | none =>
      have hnoColon : ':' ∉ s := (splitOnceList_eq_none_iff ':' s).mp hc
      simp only [parse_address, hsp, hc]
      constructor
      · intro h
        cases h
      · rintro ⟨ps, hip, hps, (⟨-, -, rfl⟩ | ⟨cp, cs, -, -, -, -, rfl⟩)⟩
        · exact absurd (by simp) hnoColon
        · exact absurd (by simp) hnoColon
    | some pr =>
      obtain ⟨ip', rest'⟩ := pr
      obtain ⟨hs', hip'⟩ := (splitOnceList_eq_some_iff ':' s ip' rest').mp hc
      cases hp : parseU16 rest' with
      | none =>
        simp only [parse_address, hsp, hc, hp]
        constructor
        · intro h
          cases h
        · rintro ⟨ps, hip, hps, (⟨-, -, hseq⟩ | ⟨cp, cs, -, -, -, -, hseq⟩)⟩
          · have : splitOnceList ':' s = some (ip, ps) :=
              (splitOnceList_eq_some_iff ':' s ip ps).mpr ⟨hseq, hip⟩
            rw [hc] at this
            simp only [Option.some.injEq, Prod.mk.injEq] at this
            rw [this.2, hps] at hp
            cases hp
          · refine absurd ?_ hnoAt
            rw [hseq]
            simp
      | some port =>
        simp only [parse_address, hsp, hc, hp]
        constructor
        · intro h
          simp only [Except.ok.injEq, Prod.mk.injEq] at h
          obtain ⟨rfl, rfl, rfl⟩ := h
          exact ⟨rest', hip', hp, Or.inl ⟨rfl, hnoAt, hs'⟩⟩
        · rintro ⟨ps, hip, hps, (⟨rfl, -, hseq⟩ | ⟨cp, cs, -, -, -, -, hseq⟩)⟩
          · have : splitOnceList ':' s = some (ip, ps) :=
              (splitOnceList_eq_some_iff ':' s ip ps).mpr ⟨hseq, hip⟩
            rw [hc] at this
            simp only [Option.some.injEq, Prod.mk.injEq] at this
            obtain ⟨rfl, rfl⟩ := this
            rw [hps] at hp
            injection hp with hp
            rw [hp]
          · refine absurd ?_ hnoAt
            rw [hseq]
            simp
  | some pr =>
    obtain ⟨addr, cs0⟩ := pr
    obtain ⟨hsdec, hnoAtAddr⟩ := (splitOnceList_eq_some_iff '@' s addr cs0).mp hsp
    have hAtMem : '@' ∈ s := by
      rw [hsdec]
      simp
    cases hc : splitOnceList ':' addr with
    | none =>
      have hnoColon : ':' ∉ addr := (splitOnceList_eq_none_iff ':' addr).mp hc
      simp only [parse_address, hsp, hc]
      constructor
      · intro h
        cases h
      · rintro ⟨ps, hip, hps, (⟨-, hna, -⟩ | ⟨cp, cs, -, -, hnaip, hnaps, hseq⟩)⟩
        · exact absurd hAtMem hna
        · have hs2 : s = (ip ++ ':' :: ps) ++ '@' :: cs := by
            rw [hseq]
            simp
          have hnoAt2 : '@' ∉ ip ++ ':' :: ps := by
            intro hm
            rcases List.mem_append.mp hm with h1 | h1
            · exact hnaip h1
            · rcases List.mem_cons.mp h1 with h2 | h2
              · cases h2
              · exact hnaps h2
          have : splitOnceList '@' s = some (ip ++ ':' :: ps, cs) :=
            (splitOnceList_eq_some_iff '@' s _ cs).mpr ⟨hs2, hnoAt2⟩
          rw [hsp] at this
          simp only [Option.some.injEq, Prod.mk.injEq] at this
          refine absurd ?_ hnoColon
          rw [this.1]
          simp
    | some pr2 =>
      obtain ⟨ip', ps'⟩ := pr2
      obtain ⟨haddr, hip'⟩ := (splitOnceList_eq_some_iff ':' addr ip' ps').mp hc
      have huniq : ∀ ps2 cs2 ip2, '@' ∉ ip2 → '@' ∉ ps2 → ':' ∉ ip2 →
          s = ip2 ++ ':' :: (ps2 ++ '@' :: cs2) → ip2 = ip' ∧ ps2 = ps' ∧ cs2 = cs0 := by
        intro ps2 cs2 ip2 hnaip hnaps hnc hseq
        have hs2 : s = (ip2 ++ ':' :: ps2) ++ '@' :: cs2 := by
          rw [hseq]
          simp
        have hnoAt2 : '@' ∉ ip2 ++ ':' :: ps2 := by
          intro hm
          rcases List.mem_append.mp hm with h1 | h1
          · exact hnaip h1
          · rcases List.mem_cons.mp h1 with h2 | h2
            · cases h2
            · exact hnaps h2
        have h1 : splitOnceList '@' s = some (ip2 ++ ':' :: ps2, cs2) :=
          (splitOnceList_eq_some_iff '@' s _ cs2).mpr ⟨hs2, hnoAt2⟩
        rw [hsp] at h1
        simp only [Option.some.injEq, Prod.mk.injEq] at h1
        have h2 : splitOnceList ':' addr = some (ip2, ps2) :=
          (splitOnceList_eq_some_iff ':' addr ip2 ps2).mpr ⟨h1.1, hnc⟩
        rw [hc] at h2
        simp only [Option.some.injEq, Prod.mk.injEq] at h2
        exact ⟨h2.1.symm, h2.2.symm, h1.2.symm⟩
      cases hp : parseU16 ps' with
      | none =>
        simp only [parse_address, hsp, hc, hp]
        constructor
        · intro h
          cases h
        · rintro ⟨ps, hip, hps, (⟨-, hna, -⟩ | ⟨cp, cs, -, -, hnaip, hnaps, hseq⟩)⟩
          · exact absurd hAtMem hna
          · obtain ⟨-, rfl, -⟩ := huniq ps cs ip hnaip hnaps hip hseq
            rw [hps] at hp
            cases hp
      | some port =>
        cases hcp : parseU16 cs0 with
        | none =>
          simp only [parse_address, hsp, hc, hp, hcp]
          constructor
          · intro h
            cases h
          · rintro ⟨ps, hip, hps, (⟨-, hna, -⟩ | ⟨cp, cs, -, hcs, hnaip, hnaps, hseq⟩)⟩
            · exact absurd hAtMem hna
            · obtain ⟨-, -, rfl⟩ := huniq ps cs ip hnaip hnaps hip hseq
              rw [hcs] at hcp
              cases hcp
        | some cport =>
          simp only [parse_address, hsp, hc, hp, hcp]
          constructor
          · intro h
            simp only [Except.ok.injEq, Prod.mk.injEq] at h
            obtain ⟨rfl, rfl, rfl⟩ := h
            have hnaip : '@' ∉ ip' := fun hm => hnoAtAddr (by
              rw [haddr]
              exact List.mem_append.mpr (Or.inl hm))
            have hnaps : '@' ∉ ps' := fun hm => hnoAtAddr (by
              rw [haddr]
              exact List.mem_append.mpr (Or.inr (List.mem_cons_of_mem ':' hm)))
            refine ⟨ps', hip', hp, Or.inr ⟨cport, cs0, rfl, hcp, hnaip, hnaps, ?_⟩⟩
            rw [hsdec, haddr]
            simp
          · rintro ⟨ps, hip, hps, (⟨-, hna, -⟩ | ⟨cp, cs, hcv, hcs, hnaip, hnaps, hseq⟩)⟩
            · exact absurd hAtMem hna
            · obtain ⟨rfl, rfl, rfl⟩ := huniq ps cs ip hnaip hnaps hip hseq
              rw [hps] at hp
              injection hp with hp
              rw [hcs] at hcp
              injection hcp with hcp
              rw [hcv, hp, hcp]

/-- C2 counterexample: the bracketed IPv6 literal `[::1]:6379`, which the
claim says parses to host `[::1]` and port 6379, is rejected: the split at
the first colon yields host `[` and port text `:1]:6379`, which fails to
parse. -/
theorem parse_address_rejects_bracketed_ipv6 :
    parse_address ("[::1]:6379".toList) =
      .error (.invalid ("Invalid port: " ++ String.mk (":1]:6379".toList))) ∧
    parse_address ("[::1]:6379".toList) ≠ .ok ("[::1]".toList, 6379, none) := by
  constructor
  · rfl
  · intro h
    rw [(by rfl : parse_address ("[::1]:6379".toList) =
      .error (.invalid ("Invalid port: " ++ String.mk (":1]:6379".toList))))] at h
    cases h

/-! ## JSON truncation theorems (C4) -/

theorem length_le_rustByteLen (s : String) : s.length ≤ rustByteLen s := by
  rw [rustByteLen]
  have h : ∀ l : List Char, l.length ≤ (l.map Char.utf8Size).sum := by
    intro l
    induction l with
    | nil => simp
    | cons c cs ih =>
      simp only [List.length_cons, List.map_cons, List.sum_cons]
      have := Char.utf8Size_pos c
      omega
  exact h s.toList

mutual

/-- C4 (amended): truncation replaces exactly the strings whose character
count exceeds the limit by their first `m` characters followed by
`"...(Total xx chars, content hidden)"` — three ASCII dots, with `xx` the
original character count — leaves shorter strings unchanged, and reports
whether at least one string was replaced. -/
theorem truncate_long_strings_spec (m : Nat) :
    ∀ v : Json, truncateLongStrings m v = (mapJsonStrings (truncStr m) v, jsonHasLongString m v)
  | .null => rfl
  | .bool b => rfl
  | .num s => rfl
  | .str s => by
    simp only [truncateLongStrings, mapJsonStrings, jsonHasLongString, truncStr]
    by_cases h : m < s.length
    · have hb : m < rustByteLen s := lt_of_lt_of_le h (length_le_rustByteLen s)
      simp [h, hb]
    · by_cases hb : m < rustByteLen s
      · simp [h, hb]
      · simp [h, hb]
  | .arr items => by
    simp only [truncateLongStrings, truncateJsonList_spec m items, mapJsonStrings,
      jsonHasLongString]
  | .obj fields => by
    simp only [truncateLongStrings, truncateJsonFields_spec m fields, mapJsonStrings,
      jsonHasLongString]

theorem truncateJsonList_spec (m : Nat) :
    ∀ l : List Json,
      truncateJsonList m l = (mapJsonStringsList (truncStr m) l, jsonHasLongStringList m l)
  | [] => rfl
  | v :: rest => by
    simp only [truncateJsonList, truncate_long_strings_spec m v, truncateJsonList_spec m rest,
      mapJsonStringsList, jsonHasLongStringList]

theorem truncateJsonFields_spec (m : Nat) :
    ∀ l : List (String × Json),
      truncateJsonFields m l = (mapJsonStringsFields (truncStr m) l, jsonHasLongStringFields m l)
  | [] => rfl
  | kv :: rest => by
    simp only [truncateJsonFields, truncate_long_strings_spec m kv.2,
      truncateJsonFields_spec m rest, mapJsonStringsFields, jsonHasLongStringFields]

end

/-- C4 counterexample: with limit 1, the string `ab` is truncated to
`a...(Total 2 chars, content hidden)` with three ASCII full stops — not
the single-character horizontal ellipsis the claim states. -/
theorem truncate_suffix_is_ascii_dots :
    truncateLongStrings 1 (.str "ab") = (.str "a...(Total 2 chars, content hidden)", true) ∧
    truncateLongStrings 1 (.str "ab") ≠ (.str "a…(Total 2 chars, content hidden)", true) := by
  refine ⟨rfl, fun h => ?_⟩
  rw [(rfl : truncateLongStrings 1 (.str "ab") =
    (.str "a...(Total 2 chars, content hidden)", true))] at h
  have hs : ("a...(Total 2 chars, content hidden)" : String) =
      "a…(Total 2 chars, content hidden)" := by
    injection congrArg Prod.fst h with hs
  exact absurd hs (by decide)

/-! ## Fan-out SCAN theorems (C5) -/

theorem charListLe_iff_not_lt (l1 l2 : List Char) : charListLe l1 l2 = true ↔ ¬ l2 < l1 := by
  induction l1 generalizing l2 with
  | nil =>
    simp only [charListLe, true_iff]
    intro h
    cases h
  | cons a as ih =>
    cases l2 with
    | nil =>
      simp only [charListLe, Bool.false_eq_true, false_iff, not_not]
      exact List.nil_lt_cons a as
    | cons b bs =>
      simp only [charListLe]
      by_cases hab : a < b
      · simp only [if_pos hab, true_iff]
        intro h
        cases h with
        | cons h1 => exact lt_irrefl a hab
        | rel h1 => exact lt_asymm hab h1
      · by_cases heq : a = b
        · subst heq
          rw [if_neg hab, if_pos rfl, ih bs]
          constructor
          · intro h hlt
            cases hlt with
            | cons h1 => exact h h1
            | rel h1 => exact lt_irrefl a h1
          · intro h hlt
            exact h (List.Lex.cons hlt)
        · have hba : b < a := by
            rcases lt_trichotomy a b with h | h | h
            · exact absurd h hab
            · exact absurd h heq
            · exact h
          simp only [if_neg hab, if_neg heq, Bool.false_eq_true, false_iff, not_not]
          exact List.Lex.rel hba

/-- The key order of the model agrees with the standard string order. -/
theorem strLeProp_iff (a b : String) : strLeProp a b ↔ a ≤ b := by
  rw [strLeProp, strLeB, charListLe_iff_not_lt, not_lt, String.le_iff_toList_le]

instance : IsTotal String strLeProp :=
  ⟨fun a b => by
    rw [strLeProp_iff, strLeProp_iff]
    exact le_total a b⟩

instance : IsTrans String strLeProp :=
  ⟨fun a b c hab hbc => by
    rw [strLeProp_iff] at hab hbc ⊢
    exact le_trans hab hbc⟩

/-- C5: with one cursor per master, `scan` returns the per-master new
cursors positionally and the concatenation of all key lists sorted
ascending; `first_scan` is `scan` on an all-zero cursor vector of the
master count's length. -/
theorem scan_fanout_spec (cursors : List Nat) (pattern : String) (count : Nat)
    (replies : List (Nat × List String))
    (h1 : cursors ≠ []) (h2 : replies.length = cursors.length) :
    scanModel cursors pattern count replies =
      .ok (replies.map Prod.fst) (List.insertionSort strLeProp ((replies.map Prod.snd).flatten)) ∧
    (replies.map Prod.fst).length = replies.length ∧
    (∀ i : Nat, (replies.map Prod.fst)[i]? = (replies[i]?).map Prod.fst) ∧
    (List.insertionSort strLeProp ((replies.map Prod.snd).flatten)).Sorted (· ≤ ·) ∧
    (List.insertionSort strLeProp ((replies.map Prod.snd).flatten)).Perm
      ((replies.map Prod.snd).flatten) ∧
    firstScanModel replies.length pattern count replies =
      scanModel (List.replicate replies.length 0) pattern count replies := by
  have hcmds : (cursors.map (fun cursor => scanCmd cursor pattern count)).isEmpty = false := by
    cases cursors with
    | nil => exact absurd rfl h1
    | cons a t => simp
  have hrep : replies.isEmpty = false := by
    cases replies with
    | nil =>
      cases cursors with
      | nil => exact absurd rfl h1
      | cons a t => simp at h2
    | cons a t => simp
  refine ⟨?_, by simp, fun i => by simp, ?_, List.perm_insertionSort _ _, rfl⟩
  · unfold scanModel
    simp [hcmds, hrep]
  · exact (List.sorted_insertionSort strLeProp ((replies.map Prod.snd).flatten)).imp
      (fun {a b} hab => (strLeProp_iff a b).mp hab)

/-- Witness for `scan_fanout_spec`: the end-to-end scenario of three
masters whose replies carry cursors 1, 2, 0 and keys b a, c, e d. -/
theorem scan_fanout_spec_witness :
    scanModel [0, 0, 0] "*" 100 demoScanReplies = .ok [1, 2, 0] ["a", "b", "c", "d", "e"] ∧
    (demoScanReplies.map Prod.fst).length = demoScanReplies.length ∧
    (∀ i : Nat, (demoScanReplies.map Prod.fst)[i]? = (demoScanReplies[i]?).map Prod.fst) ∧
    (["a", "b", "c", "d", "e"] : List String).Sorted (· ≤ ·) ∧
    (["a", "b", "c", "d", "e"] : List String).Perm ["b", "a", "c", "e", "d"] ∧
    firstScanModel demoScanReplies.length "*" 100 demoScanReplies =
      scanModel (List.replicate demoScanReplies.length 0) "*" 100 demoScanReplies :=
  scan_fanout_spec [0, 0, 0] "*" 100 demoScanReplies (by decide) (by decide)

/-! ## Sentinel topology theorems (C6) -/

theorem collectSentinelNodes_eq (cfg : Option String) :
    ∀ rs : List SRecord, (∀ r ∈ rs, SRecordWf r) →
      collectSentinelNodes cfg rs = .ok (expectedSentinelNodes cfg rs)
  | [], _ => rfl
  | r :: rest, hwf => by
    obtain ⟨hip, hport, hname⟩ := hwf r (List.mem_cons_self r rest)
    obtain ⟨ip, hip⟩ := Option.isSome_iff_exists.mp hip
    obtain ⟨name, hname⟩ := Option.isSome_iff_exists.mp hname
    have hrest : ∀ x ∈ rest, SRecordWf x := fun x hx => hwf x (List.mem_cons_of_mem r hx)
    have ih := collectSentinelNodes_eq cfg rest hrest
    cases hps : rGet r "port" with
    | none => rw [hps] at hport; simp at hport
    | some ps =>
      rw [hps] at hport
      cases hpp : parseU16 ps.toList with
      | none => rw [Option.some_bind, hpp] at hport; simp at hport
      | some port =>
        simp only [collectSentinelNodes, hip, hps, hpp, hname]
        have hrec : recName r = name := by
          simp [recName, hname]
        by_cases hskip : (cfg.isSome && decide (cfg ≠ some name)) = true
        · rw [if_pos hskip, ih]
          have hmat : sentinelMatches cfg r = false := by
            simp only [sentinelMatches, hrec, hskip, Bool.not_true]
          simp [expectedSentinelNodes, List.filter_cons, hmat]
        · rw [if_neg hskip, ih]
          have hb : (cfg.isSome && decide (cfg ≠ some name)) = false := by
            simp only [Bool.not_eq_true] at hskip
            exact hskip
          have hmat : sentinelMatches cfg r = true := by
            simp only [sentinelMatches, hrec, hb, Bool.not_false]
          have hnode : sentinelNode r =
              { host := ip, port := port, role := .Master, master_name := some name } := by
            simp [sentinelNode, hip, hps, recName, hname,
              show parseU16 ps.data = some port from hpp]
          simp [expectedSentinelNodes, List.filter_cons, hmat, hnode]

theorem mem_dedupNames (x : String) : ∀ l : List String, x ∈ dedupNames l ↔ x ∈ l
  | [] => Iff.rfl
  | n :: rest => by
    simp only [dedupNames, List.mem_cons, List.mem_filter, decide_eq_true_eq]
    constructor
    · rintro (rfl | ⟨hm, -⟩)
      · exact Or.inl rfl
      · exact Or.inr ((mem_dedupNames x rest).mp hm)
    · rintro (rfl | hm)
      · exact Or.inl rfl
      · by_cases hx : x = n
        · exact Or.inl hx
        · exact Or.inr ⟨(mem_dedupNames x rest).mpr hm, hx⟩

theorem dedupNames_length_le_one (m : String) :
    ∀ l : List String, (∀ x ∈ l, x = m) → (dedupNames l).length ≤ 1
  | [], _ => by simp [dedupNames]
  | n :: rest, h => by
    simp only [dedupNames, List.length_cons]
    have hnil : (dedupNames rest).filter (fun x => ¬ x = n) = [] := by
      rw [List.filter_eq_nil_iff]
      intro x hx
      have hxm : x = m := h x (List.mem_cons_of_mem _ ((mem_dedupNames x rest).mp hx))
      have hnm : n = m := h n (List.mem_cons_self n rest)
      simp [hxm, hnm]
    rw [hnil]
    simp

theorem expected_masterNames_of_none (rs : List SRecord) :
    (expectedSentinelNodes none rs).filterMap (fun n => n.master_name) = rs.map recName := by
  induction rs with
  | nil => rfl
  | cons r rest ih =>
    have hmat : sentinelMatches none r = true := by simp [sentinelMatches]
    simp only [expectedSentinelNodes, List.filter_cons, hmat, if_pos, List.map_cons,
      List.filterMap_cons] at ih ⊢
    simp only [sentinelNode, ih]

theorem mem_expectedSentinelNodes (cfg : Option String) (rs : List SRecord) (n : RNode)
    (hn : n ∈ expectedSentinelNodes cfg rs) :
    ∃ r, r ∈ rs ∧ sentinelMatches cfg r = true ∧ n = sentinelNode r := by
  simp only [expectedSentinelNodes, List.mem_map] at hn
  obtain ⟨r, hr, hrn⟩ := hn
  have hm := List.mem_filter.mp hr
  exact ⟨r, hm.1, hm.2, hrn.symm⟩

theorem sentinelMatches_some_iff (m : String) (r : SRecord) :
    sentinelMatches (some m) r = true ↔ m = recName r := by
  simp only [sentinelMatches, Option.isSome_some, Bool.true_and, Bool.not_eq_true',
    decide_eq_false_iff_not, ne_eq, Option.some.injEq, not_not]

/-- C6: with no preferred master name configured, more than one distinct
master name in the `SENTINEL MASTERS` reply is an `Invalid` error carrying
the distinct names; with a single distinct name, or a configured preferred
name, resolution returns one node per matching record, each with role
`Master` and that master name. -/
theorem sentinel_topology_resolution (cfg : Option String) (rs : List SRecord)
    (hwf : ∀ r ∈ rs, SRecordWf r) :
    (cfg = none → 2 ≤ (dedupNames (rs.map recName)).length →
      getRedisNodesSentinel cfg rs =
        .error (.invalid (multiMasterMsg (dedupNames (rs.map recName))))) ∧
    (cfg = none → (dedupNames (rs.map recName)).length ≤ 1 →
      getRedisNodesSentinel cfg rs = .ok (expectedSentinelNodes cfg rs)) ∧
    (∀ m, cfg = some m → getRedisNodesSentinel cfg rs = .ok (expectedSentinelNodes cfg rs)) ∧
    (∀ n ∈ expectedSentinelNodes cfg rs, n.role = .Master) ∧
    (∀ m, cfg = some m → ∀ n ∈ expectedSentinelNodes cfg rs, n.master_name = some m) ∧
    (∀ nm, cfg = none → dedupNames (rs.map recName) = [nm] →
      ∀ n ∈ expectedSentinelNodes cfg rs, n.master_name = some nm) := by
  have hcol := collectSentinelNodes_eq cfg rs hwf
  refine ⟨fun hcfg h2 => ?_, fun hcfg h1 => ?_, fun m hcfg => ?_, fun n hn => ?_,
    fun m hcfg n hn => ?_, fun nm hcfg hded n hn => ?_⟩
  · subst hcfg
    simp only [getRedisNodesSentinel, hcol, expected_masterNames_of_none]
    rw [if_pos (by omega)]
  · subst hcfg
    simp only [getRedisNodesSentinel, hcol, expected_masterNames_of_none]
    rw [if_neg (by omega)]
  · subst hcfg
    simp only [getRedisNodesSentinel, hcol]
    have hall : ∀ x ∈ (expectedSentinelNodes (some m) rs).filterMap (fun n => n.master_name),
        x = m := by
      intro x hx
      obtain ⟨n, hn, hnx⟩ := List.mem_filterMap.mp hx
      obtain ⟨r, -, hmat, rfl⟩ := mem_expectedSentinelNodes (some m) rs n hn
      have hm := (sentinelMatches_some_iff m r).mp hmat
      simp only [sentinelNode] at hnx
      injection hnx with hnx
      rw [← hnx, ← hm]
    have hle := dedupNames_length_le_one m _ hall
    rw [if_neg (by omega)]
  · obtain ⟨r, -, -, rfl⟩ := mem_expectedSentinelNodes cfg rs n hn
    rfl
  · subst hcfg
    obtain ⟨r, -, hmat, rfl⟩ := mem_expectedSentinelNodes (some m) rs n hn
    have hm := (sentinelMatches_some_iff m r).mp hmat
    simp [sentinelNode, hm]
  · subst hcfg
    obtain ⟨r, hr, -, rfl⟩ := mem_expectedSentinelNodes none rs n hn
    have hmem : recName r ∈ dedupNames (rs.map recName) :=
      (mem_dedupNames _ _).mpr (List.mem_map.mpr ⟨r, hr, rfl⟩)
    rw [hded] at hmem
    have : recName r = nm := by simpa using hmem
    simp [sentinelNode, this]

/-- Witness for `sentinel_topology_resolution`: the end-to-end scenario —
two Sentinel records named `a` and `b`, no configured master name — fails
with the `Invalid` error carrying both names. -/
theorem sentinel_topology_resolution_witness :
    getRedisNodesSentinel none [sentinelRecA, sentinelRecB] =
      .error (.invalid (multiMasterMsg ["a", "b"])) :=
  (sentinel_topology_resolution none [sentinelRecA, sentinelRecB] (by decide)).1 rfl (by decide)

/-! ## Base64 and seal/open theorems (C1, C7) -/

theorem b64Val_b64Char : ∀ n : Nat, n < 64 → b64Val (b64Char n) = some n := by decide

theorem b64Char_ne_pad : ∀ n : Nat, n < 64 → ¬ b64Char n = '=' := by decide

theorem b64EncodeList_ne_nil (b0 : Nat) (l : List Nat) : b64EncodeList (b0 :: l) ≠ [] := by
  match l with
  | [] => simp [b64EncodeList]
  | [b1] => simp [b64EncodeList]
  | b1 :: b2 :: rest => simp [b64EncodeList]

/-- Decoding inverts encoding on byte lists. -/
theorem b64_decode_encode : ∀ l : List Nat, (∀ b ∈ l, b < 256) →
    b64DecodeList (b64EncodeList l) = some l
  | [], _ => rfl
  | [b0], h => by
    have hb0 : b0 < 256 := h b0 (by simp)
    have h1 : b0 / 4 < 64 := by omega
    have h2 : b0 % 4 * 16 < 64 := by omega
    simp only [b64EncodeList, b64DecodeList, List.isEmpty_nil, if_true, b64DecodeLast,
      b64Val_b64Char _ h1, b64Val_b64Char _ h2, if_pos rfl]
    rw [if_pos (Nat.mul_mod_left _ _)]
    simp only [Option.some.injEq, List.cons.injEq, and_true]
    omega
  | [b0, b1], h => by
    have hb0 : b0 < 256 := h b0 (by simp)
    have hb1 : b1 < 256 := h b1 (by simp)
    have h1 : b0 / 4 < 64 := by omega
    have h2 : b0 % 4 * 16 + b1 / 16 < 64 := by omega
    have h3 : b1 % 16 * 4 < 64 := by omega
    simp only [b64EncodeList, b64DecodeList, List.isEmpty_nil, if_true, b64DecodeLast,
      b64Val_b64Char _ h1, b64Val_b64Char _ h2, b64Val_b64Char _ h3,
      if_neg (b64Char_ne_pad _ h3), if_pos rfl]
    rw [if_pos (Nat.mul_mod_left _ _)]
    simp only [Option.some.injEq, List.cons.injEq, and_true]
    constructor
    · omega
    · omega
  | b0 :: b1 :: b2 :: rest, h => by
    have hb0 : b0 < 256 := h b0 (by simp)
    have hb1 : b1 < 256 := h b1 (by simp)
    have hb2 : b2 < 256 := h b2 (by simp)
    have h1 : b0 / 4 < 64 := by omega
    have h2 : b0 % 4 * 16 + b1 / 16 < 64 := by omega
    have h3 : b1 % 16 * 4 + b2 / 64 < 64 := by omega
    have h4 : b2 % 64 < 64 := by omega
    have ih := b64_decode_encode rest (fun b hb => h b (by simp [hb]))
    cases hrest : rest with
    | nil =>
      subst hrest
      simp only [b64EncodeList, b64DecodeList, List.isEmpty_nil, if_true, b64DecodeLast,
        b64Val_b64Char _ h1, b64Val_b64Char _ h2, b64Val_b64Char _ h3, b64Val_b64Char _ h4,
        if_neg (b64Char_ne_pad _ h3), if_neg (b64Char_ne_pad _ h4), b64DecodeQuad]
      simp only [Option.some.injEq, List.cons.injEq, and_true]
      refine ⟨by omega, by omega, by omega⟩
    | cons r0 rtail =>
      have hne : b64EncodeList rest ≠ [] := by
        rw [hrest]
        exact b64EncodeList_ne_nil r0 rtail
      have hnemp : (b64EncodeList rest).isEmpty = false := by
        cases hv : b64EncodeList rest with
        | nil => exact absurd hv hne
        | cons x xs => rfl
      rw [← hrest]
      simp only [b64EncodeList, b64DecodeList, hnemp, Bool.false_eq_true, if_false,
        b64Val_b64Char _ h1, b64Val_b64Char _ h2, b64Val_b64Char _ h3, b64Val_b64Char _ h4, ih,
        b64DecodeQuad]
      simp only [Option.some.injEq, List.cons_append, List.nil_append, List.cons.injEq, and_true]
      refine ⟨by omega, by omega, by omega⟩

/-- C7: sealing any plaintext (a valid UTF-8 byte sequence) with any
12-byte nonce and opening the result recovers the plaintext, given the
AEAD contract of the cipher library. -/
theorem encrypt_decrypt_roundtrip (A : Aead) (nonce plain : List Nat)
    (hA : A.dec nonce (A.enc nonce plain) = some plain)
    (hn : nonce.length = 12)
    (hnb : ∀ b ∈ nonce, b < 256)
    (hcb : ∀ b ∈ A.enc nonce plain, b < 256)
    (hp : utf8Valid plain = true) :
    decrypt A (encrypt A nonce plain) = .ok plain := by
  have hbounds : ∀ b ∈ nonce ++ A.enc nonce plain, b < 256 := by
    intro b hb
    rcases List.mem_append.mp hb with hm | hm
    · exact hnb b hm
    · exact hcb b hm
  have hdec := b64_decode_encode (nonce ++ A.enc nonce plain) hbounds
  have hlen : ¬ ((nonce ++ A.enc nonce plain).length < 12) := by
    rw [List.length_append, hn]
    omega
  unfold encrypt decrypt
  simp only [hdec, if_neg hlen, List.take_left' hn, List.drop_left' hn, hA, hp, if_true]

/-- Witness for `encrypt_decrypt_roundtrip`: the identity AEAD, the
all-zero nonce, and the plaintext bytes of `hi`. -/
theorem encrypt_decrypt_roundtrip_witness :
    decrypt idAead (encrypt idAead (List.replicate 12 0) [104, 105]) = .ok [104, 105] :=
  encrypt_decrypt_roundtrip idAead (List.replicate 12 0) [104, 105] rfl (by decide) (by decide)
    (by decide) (by decide)

/-- C1 (code bug): `decrypt` panics — Rust's `&data[0..12]` index out of
range — on any well-formed base64 input that decodes to fewer than 12
bytes, such as the empty string or `AAAA` (three zero bytes), instead of
returning the `Invalid` error its documentation promises. -/
theorem decrypt_short_payload_panics :
    decrypt idAead [] = .panicked ∧ decrypt idAead ['A', 'A', 'A', 'A'] = .panicked :=
  ⟨rfl, rfl⟩

end Zedis
